import Mathlib

/-!
Verification of the fire-alarm-service incident engine.

The WMATA feed adapter (`examples/wmata.rs`) is embedded directly from the
source: raw records carry a `DateUpdated` timestamp string (documented in the
source as `YYYY-MM-DDTHH:mm:SS`, US Eastern local time) and a free-text
`Description`; conversion parses the timestamp, resolves it against the US
Eastern timezone rejecting DST folds and gaps, and builds a canonical
incident.  The engine library itself (reconciler, state store, orchestrator)
is not part of the published sources, so it is modelled from the design
specification; those definitions say so in their doc comments.
-/

namespace FireAlarm

/-! ## Calendar arithmetic

Proleptic-Gregorian day counting (days since the Unix epoch 1970-01-01),
after the standard civil-from-days / days-from-civil algorithms.  All
divisions are Euclidean (`Int.ediv` / `Int.emod`), whose quotient agrees with
floor division for the positive divisors used here. -/

def isLeapYear (y : Nat) : Bool :=
  (y % 4 == 0 && y % 100 != 0) || y % 400 == 0

def daysInMonth (y m : Nat) : Nat :=
  match m with
  | 1 => 31
  | 2 => if isLeapYear y then 29 else 28
  | 3 => 31
  | 4 => 30
  | 5 => 31
  | 6 => 30
  | 7 => 31
  | 8 => 31
  | 9 => 30
  | 10 => 31
  | 11 => 30
  | 12 => 31
  | _ => 0

/-- Days since 1970-01-01 of the civil date `(y, m, d)`. -/
def civilToDays (y : Int) (m d : Nat) : Int :=
  let y' : Int := if m ≤ 2 then y - 1 else y
  let era : Int := Int.ediv y' 400
  let yoe : Int := y' - era * 400
  let mp : Nat := if m ≤ 2 then m + 9 else m - 3
  let doy : Int := Int.ofNat ((153 * mp + 2) / 5 + d - 1)
  let doe : Int := yoe * 365 + Int.ediv yoe 4 - Int.ediv yoe 100 + doy
  era * 146097 + doe - 719468

/-- Civil year containing the day `z` (days since 1970-01-01). -/
def yearFromDays (z : Int) : Int :=
  let z' := z + 719468
  let era := Int.ediv z' 146097
  let doe := z' - era * 146097
  let yoe := Int.ediv (doe - Int.ediv doe 1460 + Int.ediv doe 36524 - Int.ediv doe 146096) 365
  let y := yoe + era * 400
  let doy := doe - (365 * yoe + Int.ediv yoe 4 - Int.ediv yoe 100)
  let mp := Int.ediv (5 * doy + 2) 153
  let m := if mp < 10 then mp + 3 else mp - 9
  if m ≤ 2 then y + 1 else y

/-! ## US Eastern timezone

Model of `chrono_tz::US::Eastern` as used by the adapter, for the era covered
by the current US DST rule (in force since 2007, the rule the tz database
applies to all feed data this service can see): standard offset UTC-5 (EST),
daylight offset UTC-4 (EDT); DST starts the second Sunday of March at 07:00
UTC (02:00 EST) and ends the first Sunday of November at 06:00 UTC
(02:00 EDT). -/

def estOffset : Int := -18000

def edtOffset : Int := -14400

/-- Day-of-month offset (0-based) of the first Sunday on or after the day
`d0` (days since epoch); 1970-01-01 was a Thursday. -/
def sundayOffset (d0 : Int) : Int :=
  Int.emod (7 - Int.emod (d0 + 4) 7) 7

/-- UTC instant (seconds since epoch) at which DST begins in year `y`:
second Sunday of March, 07:00 UTC. -/
def dstStartUtc (y : Int) : Int :=
  let d0 := civilToDays y 3 1
  (d0 + sundayOffset d0 + 7) * 86400 + 25200

/-- UTC instant (seconds since epoch) at which DST ends in year `y`:
first Sunday of November, 06:00 UTC. -/
def dstEndUtc (y : Int) : Int :=
  let d0 := civilToDays y 11 1
  (d0 + sundayOffset d0) * 86400 + 21600

/-- Whether US Eastern daylight-saving time is in effect at the UTC instant
`t` (seconds since epoch). -/
def isDstUtc (t : Int) : Bool :=
  let y := yearFromDays (Int.ediv t 86400)
  decide (dstStartUtc y ≤ t ∧ t < dstEndUtc y)

/-- UTC-offset (seconds) of US Eastern at the UTC instant `t`. -/
def easternOffsetAtUtc (t : Int) : Int :=
  if isDstUtc t then edtOffset else estOffset

/-- The local US Eastern wall-clock reading (seconds since epoch of the local
calendar) at the UTC instant `t`. -/
def localOfUtc (t : Int) : Int :=
  t + easternOffsetAtUtc t

/-- All UTC instants whose US Eastern wall-clock reading is `l`, earliest
first: the embedding of `chrono_tz::US::Eastern.from_local_datetime`.  An
empty list is a DST gap, a two-element list is a DST fold, and a singleton is
an unambiguous local time (`LocalResult::Single`). -/
def easternFromLocal (l : Int) : List Int :=
  (if localOfUtc (l - edtOffset) = l then [l - edtOffset] else []) ++
    (if localOfUtc (l - estOffset) = l then [l - estOffset] else [])

/-! ## Timestamp parsing

Embedding of `chrono::NaiveDateTime::parse_from_str(s, "%FT%T")` as invoked
by the adapter, restricted to the feed's documented fixed-width
`YYYY-MM-DDTHH:mm:SS` form (the source comments pin `DateUpdated` to exactly
this shape): nineteen characters, four-digit year, two-digit remaining
fields, with calendar-validity checks.  Failure is `none`
(`MalformedTimestamp`). -/

structure NaiveDateTime where
  year : Nat
  month : Nat
  day : Nat
  hour : Nat
  minute : Nat
  second : Nat
deriving DecidableEq, Repr

def digitVal (c : Char) : Option Nat :=
  if '0' ≤ c ∧ c ≤ '9' then some (c.toNat - 48) else none

def naiveValid (n : NaiveDateTime) : Bool :=
  decide (1 ≤ n.month ∧ n.month ≤ 12 ∧ 1 ≤ n.day ∧ n.day ≤ daysInMonth n.year n.month ∧
    n.hour ≤ 23 ∧ n.minute ≤ 59 ∧ n.second ≤ 59)

def parseTimestamp (s : String) : Option NaiveDateTime :=
  match s.data with
  | [y1, y2, y3, y4, c1, m1, m2, c2, d1, d2, c3, h1, h2, c4, i1, i2, c5, s1, s2] =>
    if c1 = '-' ∧ c2 = '-' ∧ c3 = 'T' ∧ c4 = ':' ∧ c5 = ':' then
      match digitVal y1, digitVal y2, digitVal y3, digitVal y4, digitVal m1, digitVal m2,
          digitVal d1, digitVal d2, digitVal h1, digitVal h2, digitVal i1, digitVal i2,
          digitVal s1, digitVal s2 with
      | some a, some b, some c, some d, some e, some f, some g, some h,
          some i, some j, some k, some l, some m, some n =>
        let dt : NaiveDateTime :=
          ⟨1000 * a + 100 * b + 10 * c + d, 10 * e + f, 10 * g + h,
            10 * i + j, 10 * k + l, 10 * m + n⟩
        if naiveValid dt then some dt else none
      | _, _, _, _, _, _, _, _, _, _, _, _, _, _ => none
    else none
  | _ => none

/-- Wall-clock reading of a parsed local datetime, as seconds since the epoch
of the local calendar. -/
def naiveToLocalSecs (n : NaiveDateTime) : Int :=
  civilToDays (Int.ofNat n.year) n.month n.day * 86400 +
    Int.ofNat (n.hour * 3600 + n.minute * 60 + n.second)

/-! ## Canonical incidents and the WMATA adapter -/

/-- Canonical incident (`fire_alarm_service::Incident`, spec §3): an absolute
UTC timestamp (seconds since epoch) and the free-form description. -/
structure Incident where
  occurred_at : Int
  description : String
deriving DecidableEq, Repr

/-- `Incident::new`, as used by the adapter. -/
def Incident.new (occurred_at : Int) (description : String) : Incident :=
  ⟨occurred_at, description⟩

/-- The deserialized WMATA feed record (`IncidentWmata` in
`examples/wmata.rs`): only `DateUpdated` and `Description` are declared; all
other feed fields are dropped by deserialization. -/
structure IncidentWmata where
  DateUpdated : String
  Description : String
deriving DecidableEq, Repr

/-- The two distinguishable normalization failures (spec §4.1): the chrono
parse error and the fold/gap rejection added by `.context(...)`. -/
inductive NormError where
  | malformedTimestamp
  | ambiguousLocalTime
deriving DecidableEq, Repr

/-- Embedding of `TryFrom<IncidentWmata> for Incident`
(`examples/wmata.rs:107-123`): parse `DateUpdated` with format `%FT%T`,
resolve in US Eastern, demand a single instant, convert to UTC, and carry the
description over. -/
def incidentTryFrom (v : IncidentWmata) : Except NormError Incident :=
  match parseTimestamp v.DateUpdated with
  | none => .error .malformedTimestamp
  | some n =>
    match easternFromLocal (naiveToLocalSecs n) with
    | [t] => .ok (Incident.new t v.Description)
    | _ => .error .ambiguousLocalTime

/-- Embedding of `TryFrom<IncidentsWmata> for Vec<Incident>`
(`examples/wmata.rs:96-105`): convert each record in feed order, failing fast
on the first record that does not convert (`Iterator::collect` over
`Result`). -/
def incidentsTryFrom : List IncidentWmata → Except NormError (List Incident)
  | [] => .ok []
  | x :: rest =>
    match incidentTryFrom x with
    | .error e => .error e
    | .ok i =>
      match incidentsTryFrom rest with
      | .error e => .error e
      | .ok l => .ok (i :: l)

/-- The full WMATA feed record, with the fields that `examples/wmata.rs:68-81`
lists but leaves commented out of the deserialized struct. -/
structure RawFeedRecord where
  DateUpdated : String
  DelaySeverity : String
  Description : String
  EmergencyText : String
  EndLocationFullName : String
  IncidentID : Option String
  IncidentType : Option String
  LinesAffected : Option String
  PassengerDelay : String
  StartLocationFullName : String

/-- Deserialization of a feed record into `IncidentWmata`: serde keeps only
the two declared fields and ignores the rest. -/
def deserializeWmata (r : RawFeedRecord) : IncidentWmata :=
  ⟨r.DateUpdated, r.Description⟩

/-! ## The engine: reconciler, state store, orchestrator

Modelled from the spec: the `fire_alarm_service` library crate is not among
the published sources (only its callers in `main.rs` and
`examples/wmata.rs` are), so the definitions below follow spec §3-§4. -/

/-- Identity key of a canonical incident (spec §4.2): the pair of its two
canonical fields. -/
abbrev Ident := Int × String

/-- Modelled from the spec: identity derivation (spec §3, §4.2) — two
incidents are identity-equal iff `occurred_at` and `description` are both
equal, so the key is the tuple of those fields. -/
def identity (i : Incident) : Ident :=
  (i.occurred_at, i.description)

/-- Modelled from the spec: the Reconciler's scan (spec §4.4) — walk the
input in order, keeping an incident iff its identity is neither in the known
set nor already seen earlier in this input. -/
def reconcileGo : List Incident → List Ident → List Incident
  | [], _ => []
  | x :: rest, seen =>
    if identity x ∈ seen then reconcileGo rest seen
    else x :: reconcileGo rest (identity x :: seen)

/-- Modelled from the spec: the Reconciler (spec §4.4) — the NotificationBatch
for an input sequence and a known-identity set. -/
def reconcile (input : List Incident) (known : List Ident) : List Incident :=
  reconcileGo input known

/-- First input incident carrying the identity `k`, if any. -/
def firstWith : List Incident → Ident → Option Incident
  | [], _ => none
  | x :: rest, k => if identity x = k then some x else firstWith rest k

/-- Modelled from the spec: the single store-layer failure relevant to commit
(spec §4.3). -/
inductive CommitError where
  | constraintViolation
deriving DecidableEq, Repr

/-- Modelled from the spec: transactional insertion (spec §4.3) — insert the
incidents one by one into a working copy of the identity set; `none` when any
single insert would duplicate an identity. -/
def insertAll : List Ident → List Incident → Option (List Ident)
  | store, [] => some store
  | store, x :: rest =>
    if identity x ∈ store then none
    else insertAll (identity x :: store) rest

/-- Modelled from the spec: the state store (spec §4.3) — its observable
content is the set of committed identities. -/
structure Store where
  known : List Ident
deriving DecidableEq, Repr

/-- Modelled from the spec: `load_known_identities()` (spec §4.3). -/
def loadKnownIdentities (s : Store) : List Ident :=
  s.known

/-- Modelled from the spec: `commit` (spec §4.3) — all inserts in one
transaction; on a uniqueness violation the transaction is discarded and the
store is returned unchanged. -/
def storeCommit (s : Store) (incs : List Incident) : Store × Option CommitError :=
  match insertAll s.known incs with
  | some st => (⟨st⟩, none)
  | none => (s, some .constraintViolation)

/-- Observable I/O events of one run: a notification attempt with its
outcome, and a store commit. -/
inductive Event where
  | notified (batch : List Incident) (ok : Bool)
  | committed (batch : List Incident)
deriving DecidableEq, Repr

/-- Failure reasons of a run (spec §7). -/
inductive RunError where
  | deliveryFailed
  | storeFailed (e : CommitError)
  | normFailed (e : NormError)
deriving DecidableEq, Repr

/-- Terminal state of the orchestrator's state machine (spec §4.6). -/
inductive Terminal where
  | done
  | failed (r : RunError)
deriving DecidableEq, Repr

/-- Outcome of one run: its ordered event trace, terminal state, and the
store contents after the run. -/
structure RunResult where
  trace : List Event
  terminal : Terminal
  store : List Ident
deriving DecidableEq, Repr

/-- Modelled from the spec: the Run Orchestrator (spec §4.6) — reconcile,
stop at `Done` on an empty batch, otherwise notify and commit only after the
Notifier reports success; `sendOk` is the mail transport's verdict. -/
def runEngine (known : List Ident) (incidents : List Incident) (sendOk : Bool) :
    RunResult :=
  let batch := reconcile incidents known
  if batch.isEmpty then ⟨[], .done, known⟩
  else if sendOk then
    match storeCommit ⟨known⟩ batch with
    | (st, none) => ⟨[.notified batch true, .committed batch], .done, st.known⟩
    | (_, some e) => ⟨[.notified batch true], .failed (.storeFailed e), known⟩
  else ⟨[.notified batch false], .failed .deliveryFailed, known⟩

/-- The WMATA binary's pipeline (`examples/wmata.rs:39-59`): convert the
fetched batch, aborting the process before the engine runs if conversion
fails, then hand the canonical incidents to the engine. -/
def wmataRun (raw : List IncidentWmata) (known : List Ident) (sendOk : Bool) :
    RunResult :=
  match incidentsTryFrom raw with
  | .error e => ⟨[], .failed (.normFailed e), known⟩
  | .ok incs => runEngine known incs sendOk

/-! ## Engine lemmas -/

theorem insertAll_some_sound :
    ∀ (incs : List Incident) (store st : List Ident), insertAll store incs = some st →
      (incs.map identity).Nodup ∧ ∀ x ∈ incs, identity x ∉ store := by
  intro incs
  induction incs with
  | nil => intro store st _; simp
  | cons x rest ih =>
    intro store st h
    simp only [insertAll] at h
    by_cases hx : identity x ∈ store
    · rw [if_pos hx] at h; cases h
    · rw [if_neg hx] at h
      obtain ⟨hnd, hfr⟩ := ih _ _ h
      have hxr : ∀ y ∈ rest, identity y ≠ identity x := by
        intro y hy hc
        exact hfr y hy (by rw [hc]; exact List.mem_cons_self _ _)
      refine ⟨?_, ?_⟩
      · simp only [List.map_cons, List.nodup_cons]
        refine ⟨?_, hnd⟩
        intro hmem
        obtain ⟨y, hy, hyx⟩ := List.mem_map.mp hmem
        exact hxr y hy hyx
      · intro y hy
        rcases List.mem_cons.mp hy with rfl | hy'
        · exact hx
        · intro hc
          exact hfr y hy' (List.mem_cons_of_mem _ hc)

theorem runEngine_sendFail (known : List Ident) (incs : List Incident) :
    runEngine known incs false =
      if (reconcile incs known).isEmpty then ⟨[], .done, known⟩
      else ⟨[.notified (reconcile incs known) false], .failed .deliveryFailed, known⟩ := by
  unfold runEngine
  by_cases h : (reconcile incs known).isEmpty <;> simp [h]

theorem runEngine_trace_cases (known : List Ident) (incs : List Incident) (sendOk : Bool) :
    (runEngine known incs sendOk).trace = [] ∨
    (runEngine known incs sendOk).trace = [.notified (reconcile incs known) false] ∨
    (runEngine known incs sendOk).trace = [.notified (reconcile incs known) true] ∨
    (runEngine known incs sendOk).trace =
      [.notified (reconcile incs known) true, .committed (reconcile incs known)] := by
  unfold runEngine
  by_cases h : (reconcile incs known).isEmpty
  · simp [h]
  · cases sendOk
    · simp [h]
    · simp only [h, Bool.false_eq_true, if_false, if_true]
      rcases hc : storeCommit ⟨known⟩ (reconcile incs known) with ⟨st, err⟩
      cases err <;> simp

/-- Claim C1: the commit operation runs only after the Notifier has reported
success — a commit event in a run's trace is immediately preceded by a
successful notification of the same batch — and when the send fails
(`DeliveryFailed`) no commit event occurs and the store's known identities
are unchanged. -/
theorem commit_only_after_notify_success (known : List Ident) (incs : List Incident)
    (sendOk : Bool) :
    (∀ b, Event.committed b ∈ (runEngine known incs sendOk).trace →
      (runEngine known incs sendOk).trace = [.notified b true, .committed b]) ∧
    (∀ b, Event.committed b ∉ (runEngine known incs false).trace) ∧
    (runEngine known incs false).store = known := by
  refine ⟨?_, ?_, ?_⟩
  · intro b hb
    rcases runEngine_trace_cases known incs sendOk with h | h | h | h <;> rw [h] at hb ⊢ <;>
      simp at hb
    obtain ⟨rfl⟩ := hb
    rfl
  · intro b
    rw [runEngine_sendFail]
    by_cases h : (reconcile incs known).isEmpty <;> simp [h]
  · rw [runEngine_sendFail]
    by_cases h : (reconcile incs known).isEmpty <;> simp [h]

theorem commit_only_after_notify_success_witness :
    (runEngine [] [⟨0, "a"⟩] false).store = ([] : List Ident) :=
  (commit_only_after_notify_success [] [⟨0, "a"⟩] false).2.2

/-- Claim C4: a commit whose incidents would introduce a duplicate identity
(already present in the store, or repeated within the batch) fails with
`ConstraintViolation` and leaves the store's known identities exactly as they
were — no partial write is observable. -/
theorem commit_atomic_on_duplicate (s : Store) (incs : List Incident)
    (h : ¬ ((incs.map identity).Nodup ∧ ∀ x ∈ incs, identity x ∉ loadKnownIdentities s)) :
    storeCommit s incs = (s, some CommitError.constraintViolation) ∧
    loadKnownIdentities (storeCommit s incs).1 = loadKnownIdentities s := by
  have hnone : insertAll s.known incs = none := by
    cases hi : insertAll s.known incs with
    | none => rfl
    | some st => exact absurd (insertAll_some_sound incs s.known st hi) h
  constructor <;> simp [storeCommit, hnone, loadKnownIdentities]

theorem commit_atomic_on_duplicate_witness :
    storeCommit ⟨[((0 : Int), "a")]⟩ [⟨0, "a"⟩] =
      (⟨[((0 : Int), "a")]⟩, some CommitError.constraintViolation) :=
  (commit_atomic_on_duplicate ⟨[((0 : Int), "a")]⟩ [⟨0, "a"⟩] (by decide)).1

/-- Claim C6: when the Reconciler yields an empty batch, the run terminates
in `Done` with an empty event trace — neither the Notifier nor the commit
operation is invoked — and the store is unchanged. -/
theorem empty_batch_skips_notify_and_commit (known : List Ident) (incs : List Incident)
    (sendOk : Bool) (h : reconcile incs known = []) :
    runEngine known incs sendOk = ⟨[], .done, known⟩ := by
  simp [runEngine, h]

theorem empty_batch_skips_notify_and_commit_witness :
    runEngine [((0 : Int), "a")] [⟨0, "a"⟩] true = ⟨[], .done, [((0 : Int), "a")]⟩ :=
  empty_batch_skips_notify_and_commit [((0 : Int), "a")] [⟨0, "a"⟩] true (by decide)

theorem reconcileGo_congr :
    ∀ (input : List Incident) (s₁ s₂ : List Ident), (∀ k, k ∈ s₁ ↔ k ∈ s₂) →
      reconcileGo input s₁ = reconcileGo input s₂ := by
  intro input
  induction input with
  | nil => intro s₁ s₂ _; rfl
  | cons x rest ih =>
    intro s₁ s₂ h
    simp only [reconcileGo]
    by_cases hx : identity x ∈ s₁
    · rw [if_pos hx, if_pos ((h _).mp hx)]
      exact ih _ _ h
    · rw [if_neg hx, if_neg (fun c => hx ((h _).mpr c))]
      refine congrArg _ (ih _ _ ?_)
      intro k
      simp only [List.mem_cons]
      rw [h k]

/-- Claim C7: the Reconciler is deterministic and pure — the same arguments
always produce the same batch, and the output depends only on the membership
content of the known-identity set, not on any other state. -/
theorem reconcile_deterministic_pure (input : List Incident) (known known' : List Ident) :
    reconcile input known = reconcile input known ∧
    ((∀ k, k ∈ known ↔ k ∈ known') → reconcile input known = reconcile input known') := by
  exact ⟨rfl, fun h => reconcileGo_congr input known known' h⟩

theorem reconcile_deterministic_pure_witness :
    reconcile [⟨0, "a"⟩] [((1 : Int), "b"), ((1 : Int), "b")] =
      reconcile [⟨0, "a"⟩] [((1 : Int), "b")] :=
  (reconcile_deterministic_pure [⟨0, "a"⟩] [((1 : Int), "b"), ((1 : Int), "b")]
    [((1 : Int), "b")]).2 (by intro k; simp)

theorem reconcileGo_sublist :
    ∀ (input : List Incident) (seen : List Ident), List.Sublist (reconcileGo input seen) input := by
  intro input
  induction input with
  | nil => intro seen; simp [reconcileGo]
  | cons x rest ih =>
    intro seen
    simp only [reconcileGo]
    by_cases h : identity x ∈ seen
    · rw [if_pos h]
      exact (ih seen).cons x
    · rw [if_neg h]
      exact (ih _).cons₂ x

theorem reconcileGo_not_seen :
    ∀ (input : List Incident) (seen : List Ident) (y : Incident),
      y ∈ reconcileGo input seen → identity y ∉ seen := by
  intro input
  induction input with
  | nil => intro seen y h; simp [reconcileGo] at h
  | cons x rest ih =>
    intro seen y h
    simp only [reconcileGo] at h
    by_cases hx : identity x ∈ seen
    · rw [if_pos hx] at h
      exact ih _ _ h
    · rw [if_neg hx] at h
      rcases List.mem_cons.mp h with rfl | h'
      · exact hx
      · intro hc
        exact ih _ _ h' (List.mem_cons_of_mem _ hc)

theorem reconcileGo_pairwise :
    ∀ (input : List Incident) (seen : List Ident),
      (reconcileGo input seen).Pairwise (fun a b => identity a ≠ identity b) := by
  intro input
  induction input with
  | nil => intro seen; simp [reconcileGo]
  | cons x rest ih =>
    intro seen
    simp only [reconcileGo]
    by_cases hx : identity x ∈ seen
    · rw [if_pos hx]
      exact ih seen
    · rw [if_neg hx]
      refine List.Pairwise.cons ?_ (ih _)
      intro y hy hc
      exact reconcileGo_not_seen rest _ y hy (by rw [← hc]; exact List.mem_cons_self _ _)

theorem reconcileGo_mem_iff :
    ∀ (input : List Incident) (seen : List Ident) (y : Incident),
      y ∈ reconcileGo input seen ↔
        (identity y ∉ seen ∧ firstWith input (identity y) = some y) := by
  intro input
  induction input with
  | nil => intro seen y; simp [reconcileGo, firstWith]
  | cons x rest ih =>
    intro seen y
    simp only [reconcileGo, firstWith]
    by_cases hx : identity x ∈ seen
    · rw [if_pos hx, ih]
      constructor
      · rintro ⟨hns, hfw⟩
        have hne : ¬ identity x = identity y := fun c => hns (c ▸ hx)
        exact ⟨hns, by rw [if_neg hne]; exact hfw⟩
      · rintro ⟨hns, hfw⟩
        have hne : ¬ identity x = identity y := fun c => hns (c ▸ hx)
        rw [if_neg hne] at hfw
        exact ⟨hns, hfw⟩
    · rw [if_neg hx]
      constructor
      · intro h
        rcases List.mem_cons.mp h with rfl | h'
        · exact ⟨hx, by rw [if_pos rfl]⟩
        · obtain ⟨hns, hfw⟩ := (ih _ _).mp h'
          have hyx : identity y ≠ identity x := by
            intro c
            exact hns (by rw [c]; exact List.mem_cons_self _ _)
          refine ⟨fun c => hns (List.mem_cons_of_mem _ c), ?_⟩
          rw [if_neg (fun c : identity x = identity y => hyx c.symm)]
          exact hfw
      · rintro ⟨hns, hfw⟩
        by_cases hxy : identity x = identity y
        · rw [if_pos hxy] at hfw
          have hx' : x = y := Option.some.inj hfw
          subst hx'
          exact List.mem_cons_self _ _
        · rw [if_neg hxy] at hfw
          apply List.mem_cons_of_mem
          refine (ih _ _).mpr ⟨?_, hfw⟩
          intro hc
          rcases List.mem_cons.mp hc with hcc | hcc
          · exact hxy hcc.symm
          · exact hns hcc

/-- Claim C3: the Reconciler's output is the subsequence of the input whose
identities are not in the known set, in input order, with a repeated identity
collapsed to its first occurrence — an incident is in the batch exactly when
its identity is unknown and it is the first input element carrying that
identity — and an empty input yields an empty (valid) batch. -/
theorem reconciler_batch_spec (input : List Incident) (known : List Ident) :
    List.Sublist (reconcile input known) input ∧
    (∀ y, y ∈ reconcile input known ↔
      (identity y ∉ known ∧ firstWith input (identity y) = some y)) ∧
    (reconcile input known).Pairwise (fun a b => identity a ≠ identity b) ∧
    reconcile [] known = [] := by
  exact ⟨reconcileGo_sublist input known, fun y => reconcileGo_mem_iff input known y,
    reconcileGo_pairwise input known, rfl⟩

theorem reconciler_batch_spec_witness :
    Incident.mk 10 "a" ∈ reconcile [⟨10, "a"⟩, ⟨10, "a"⟩, ⟨20, "b"⟩] [((20 : Int), "b")] :=
  ((reconciler_batch_spec [⟨10, "a"⟩, ⟨10, "a"⟩, ⟨20, "b"⟩] [((20 : Int), "b")]).2.1
    (Incident.mk 10 "a")).mpr ⟨by decide, by decide⟩

/-! ## Normalization lemmas -/

theorem easternFromLocal_shape (l : Int) :
    easternFromLocal l = [] ∨ (∃ a, easternFromLocal l = [a]) ∨
      ∃ a b, easternFromLocal l = [a, b] := by
  unfold easternFromLocal
  by_cases h1 : localOfUtc (l - edtOffset) = l <;>
    by_cases h2 : localOfUtc (l - estOffset) = l
  · rw [if_pos h1, if_pos h2]
    exact Or.inr (Or.inr ⟨_, _, rfl⟩)
  · rw [if_pos h1, if_neg h2]
    exact Or.inr (Or.inl ⟨_, rfl⟩)
  · rw [if_neg h1, if_pos h2]
    exact Or.inr (Or.inl ⟨_, rfl⟩)
  · rw [if_neg h1, if_neg h2]
    exact Or.inl rfl

theorem mem_easternFromLocal {u l : Int} : u ∈ easternFromLocal l ↔ localOfUtc u = l := by
  constructor
  · intro h
    unfold easternFromLocal at h
    rcases List.mem_append.mp h with h1 | h1
    · by_cases hc : localOfUtc (l - edtOffset) = l
      · rw [if_pos hc] at h1
        obtain rfl := List.mem_singleton.mp h1
        exact hc
      · rw [if_neg hc] at h1
        simp at h1
    · by_cases hc : localOfUtc (l - estOffset) = l
      · rw [if_pos hc] at h1
        obtain rfl := List.mem_singleton.mp h1
        exact hc
      · rw [if_neg hc] at h1
        simp at h1
  · intro h
    have ho : easternOffsetAtUtc u = edtOffset ∨ easternOffsetAtUtc u = estOffset := by
      unfold easternOffsetAtUtc
      by_cases hd : isDstUtc u
      · exact Or.inl (if_pos hd)
      · exact Or.inr (if_neg hd)
    unfold easternFromLocal
    rcases ho with ho | ho
    · have hu : u = l - edtOffset := by
        have h2 : u + easternOffsetAtUtc u = l := h
        rw [ho] at h2
        omega
      subst hu
      refine List.mem_append.mpr (Or.inl ?_)
      rw [if_pos h]
      exact List.mem_singleton_self _
    · have hu : u = l - estOffset := by
        have h2 : u + easternOffsetAtUtc u = l := h
        rw [ho] at h2
        omega
      subst hu
      refine List.mem_append.mpr (Or.inr ?_)
      rw [if_pos h]
      exact List.mem_singleton_self _

/-- Claim C2: normalization fails exactly as classified — with
`MalformedTimestamp` precisely when the timestamp string does not parse in
the fixed format, and with `AmbiguousLocalTime` precisely when it parses but
the local time has zero (gap) or two (fold) corresponding US Eastern UTC
instants; the two failures are distinguishable, and any success carries the
single corresponding UTC instant, never an arbitrarily chosen one. -/
theorem normalize_error_classification (r : IncidentWmata) :
    (incidentTryFrom r = .error .malformedTimestamp ↔
      parseTimestamp r.DateUpdated = none) ∧
    (incidentTryFrom r = .error .ambiguousLocalTime ↔
      ∃ n, parseTimestamp r.DateUpdated = some n ∧
        (easternFromLocal (naiveToLocalSecs n) = [] ∨
          ∃ a b, easternFromLocal (naiveToLocalSecs n) = [a, b])) ∧
    (∀ inc, incidentTryFrom r = .ok inc →
      ∃ n, parseTimestamp r.DateUpdated = some n ∧
        easternFromLocal (naiveToLocalSecs n) = [inc.occurred_at] ∧
        localOfUtc inc.occurred_at = naiveToLocalSecs n) ∧
    NormError.malformedTimestamp ≠ NormError.ambiguousLocalTime := by
  refine ⟨?_, ?_, ?_, by decide⟩
  · cases hp : parseTimestamp r.DateUpdated with
    | none => simp [incidentTryFrom, hp]
    | some n =>
      rcases easternFromLocal_shape (naiveToLocalSecs n) with hs | ⟨a, hs⟩ | ⟨a, b, hs⟩ <;>
        simp [incidentTryFrom, hp, hs]
  · cases hp : parseTimestamp r.DateUpdated with
    | none => simp [incidentTryFrom, hp]
    | some n =>
      rcases easternFromLocal_shape (naiveToLocalSecs n) with hs | ⟨a, hs⟩ | ⟨a, b, hs⟩
      · simp [incidentTryFrom, hp, hs]
      · simp [incidentTryFrom, hp, hs]
      · constructor
        · intro _
          exact ⟨n, rfl, Or.inr ⟨a, b, hs⟩⟩
        · intro _
          simp [incidentTryFrom, hp, hs]
  · intro inc h
    cases hp : parseTimestamp r.DateUpdated with
    | none => simp [incidentTryFrom, hp] at h
    | some n =>
      rcases easternFromLocal_shape (naiveToLocalSecs n) with hs | ⟨a, hs⟩ | ⟨a, b, hs⟩
      · simp [incidentTryFrom, hp, hs] at h
      · simp only [incidentTryFrom, hp, hs] at h
        have h2 : Incident.new a r.Description = inc := by
          simpa using h
        subst h2
        refine ⟨n, rfl, ?_, ?_⟩
        · simpa [Incident.new] using hs
        · have hm : a ∈ easternFromLocal (naiveToLocalSecs n) := by
            rw [hs]
            exact List.mem_singleton_self a
          simpa [Incident.new] using mem_easternFromLocal.mp hm
      · simp [incidentTryFrom, hp, hs] at h

theorem normalize_error_classification_witness :
    incidentTryFrom ⟨"2024-03-10T02:30:00", "Signal failure at Station A"⟩ =
      .error NormError.ambiguousLocalTime :=
  ((normalize_error_classification ⟨"2024-03-10T02:30:00", "Signal failure at Station A"⟩).2.1).mpr
    ⟨⟨2024, 3, 10, 2, 30, 0⟩, by decide, Or.inl (by decide)⟩

/-- Claim C8: a record whose timestamp parses and denotes an unambiguous US
Eastern local time normalizes successfully to an incident whose
`occurred_at` is the unique UTC instant reading that local time on the US
Eastern clock, and whose description is the record's description verbatim. -/
theorem normalize_success_unique_utc (r : IncidentWmata) (n : NaiveDateTime) (t : Int)
    (hp : parseTimestamp r.DateUpdated = some n)
    (hs : easternFromLocal (naiveToLocalSecs n) = [t]) :
    incidentTryFrom r = .ok ⟨t, r.Description⟩ ∧
    localOfUtc t = naiveToLocalSecs n ∧
    ∀ u, localOfUtc u = naiveToLocalSecs n → u = t := by
  refine ⟨?_, ?_, ?_⟩
  · simp [incidentTryFrom, hp, hs, Incident.new]
  · have hm : t ∈ easternFromLocal (naiveToLocalSecs n) := by
      rw [hs]
      exact List.mem_singleton_self t
    exact mem_easternFromLocal.mp hm
  · intro u hu
    have hm : u ∈ easternFromLocal (naiveToLocalSecs n) := mem_easternFromLocal.mpr hu
    rw [hs] at hm
    exact List.mem_singleton.mp hm

theorem normalize_success_unique_utc_witness :
    incidentTryFrom ⟨"2024-06-01T10:00:00", "Delay on Line 2"⟩ =
      .ok ⟨1717250400, "Delay on Line 2"⟩ :=
  (normalize_success_unique_utc ⟨"2024-06-01T10:00:00", "Delay on Line 2"⟩
    ⟨2024, 6, 1, 10, 0, 0⟩ 1717250400 (by decide) (by decide)).1

theorem incidentsTryFrom_error_of_mem :
    ∀ raw : List IncidentWmata, (∃ r ∈ raw, ∃ e, incidentTryFrom r = .error e) →
      ∃ e, incidentsTryFrom raw = .error e := by
  intro raw
  induction raw with
  | nil =>
    rintro ⟨r, hr, -⟩
    simp at hr
  | cons x rest ih =>
    rintro ⟨r, hr, e, he⟩
    rcases List.mem_cons.mp hr with rfl | hr'
    · exact ⟨e, by simp [incidentsTryFrom, he]⟩
    · cases hx : incidentTryFrom x with
      | error e0 => exact ⟨e0, by simp [incidentsTryFrom, hx]⟩
      | ok i =>
        obtain ⟨e1, h1⟩ := ih ⟨r, hr', e, he⟩
        exact ⟨e1, by simp [incidentsTryFrom, hx, h1]⟩

/-- Claim C5: if any single record of the incoming batch fails normalization,
conversion of the whole batch fails with that kind of error and the run
aborts before the engine acts — no event trace (no notification, no commit)
and an unchanged store. -/
theorem batch_normalization_failfast (raw : List IncidentWmata) (known : List Ident)
    (sendOk : Bool) (h : ∃ r ∈ raw, ∃ e, incidentTryFrom r = .error e) :
    ∃ e, incidentsTryFrom raw = .error e ∧
      wmataRun raw known sendOk = ⟨[], .failed (.normFailed e), known⟩ := by
  obtain ⟨e, he⟩ := incidentsTryFrom_error_of_mem raw h
  exact ⟨e, he, by simp [wmataRun, he]⟩

theorem batch_normalization_failfast_witness :
    ∃ e, incidentsTryFrom [⟨"garbled", "x"⟩, ⟨"2024-06-01T10:00:00", "y"⟩] = .error e ∧
      wmataRun [⟨"garbled", "x"⟩, ⟨"2024-06-01T10:00:00", "y"⟩] [] true =
        ⟨[], .failed (.normFailed e), []⟩ :=
  batch_normalization_failfast [⟨"garbled", "x"⟩, ⟨"2024-06-01T10:00:00", "y"⟩] [] true
    ⟨⟨"garbled", "x"⟩, List.mem_cons_self _ _, NormError.malformedTimestamp, rfl⟩

/-- Claim C9: a successful batch conversion yields exactly one canonical
incident per feed record, in feed order: the output has the input's length
and its `i`-th element is the normalization of the `i`-th record. -/
theorem batch_normalization_pointwise :
    ∀ (raw : List IncidentWmata) (out : List Incident), incidentsTryFrom raw = .ok out →
      out.length = raw.length ∧
      ∀ (i : Nat) (hi : i < raw.length) (ho : i < out.length),
        incidentTryFrom (raw.get ⟨i, hi⟩) = .ok (out.get ⟨i, ho⟩) := by
  intro raw
  induction raw with
  | nil =>
    intro out h
    simp only [incidentsTryFrom] at h
    obtain rfl : ([] : List Incident) = out := Except.ok.inj h
    exact ⟨rfl, fun i hi _ => absurd hi (by simp)⟩
  | cons x rest ih =>
    intro out h
    simp only [incidentsTryFrom] at h
    cases hx : incidentTryFrom x with
    | error e =>
      rw [hx] at h
      simp at h
    | ok i0 =>
      rw [hx] at h
      cases hr : incidentsTryFrom rest with
      | error e =>
        rw [hr] at h
        simp at h
      | ok l =>
        rw [hr] at h
        obtain rfl : i0 :: l = out := Except.ok.inj h
        obtain ⟨hlen, hpt⟩ := ih l hr
        refine ⟨by simp [hlen], ?_⟩
        intro i hi ho
        cases i with
        | zero => exact hx
        | succ j => exact hpt j (Nat.lt_of_succ_lt_succ hi) (Nat.lt_of_succ_lt_succ ho)

theorem batch_normalization_pointwise_witness :
    incidentTryFrom (([⟨"2024-06-01T10:00:00", "y"⟩] : List IncidentWmata).get ⟨0, by decide⟩) =
      .ok (([⟨1717250400, "y"⟩] : List Incident).get ⟨0, by decide⟩) :=
  (batch_normalization_pointwise [⟨"2024-06-01T10:00:00", "y"⟩] [⟨1717250400, "y"⟩]
    rfl).2 0 (by decide) (by decide)

/-- Claim C10: a canonical incident is built from exactly the `DateUpdated`
and `Description` fields of the raw feed record — deserialization discards
every other field, so two raw records agreeing on those two fields normalize
identically — and on success the description is carried over verbatim, so the
identity key depends only on the derived UTC instant and that description. -/
theorem normalize_depends_only_on_declared_fields (r1 r2 : RawFeedRecord)
    (hd : r1.DateUpdated = r2.DateUpdated) (he : r1.Description = r2.Description) :
    deserializeWmata r1 = deserializeWmata r2 ∧
    incidentTryFrom (deserializeWmata r1) = incidentTryFrom (deserializeWmata r2) ∧
    ∀ inc, incidentTryFrom (deserializeWmata r1) = .ok inc →
      inc.description = r1.Description ∧ identity inc = (inc.occurred_at, r1.Description) := by
  have h : deserializeWmata r1 = deserializeWmata r2 := by
    simp [deserializeWmata, hd, he]
  refine ⟨h, by rw [h], ?_⟩
  intro inc hok
  cases hp : parseTimestamp (deserializeWmata r1).DateUpdated with
  | none => simp [incidentTryFrom, hp] at hok
  | some n =>
    rcases easternFromLocal_shape (naiveToLocalSecs n) with hs | ⟨a, hs⟩ | ⟨a, b, hs⟩
    · simp [incidentTryFrom, hp, hs] at hok
    · simp only [incidentTryFrom, hp, hs] at hok
      have h2 : Incident.new a (deserializeWmata r1).Description = inc := by
        simpa using hok
      subst h2
      exact ⟨rfl, rfl⟩
    · simp [incidentTryFrom, hp, hs] at hok

theorem normalize_depends_only_on_declared_fields_witness :
    incidentTryFrom (deserializeWmata
        ⟨"2024-06-01T10:00:00", "sev", "y", "em", "end", some "id1", some "Delay",
          some "RD;", "pd", "start"⟩) =
      incidentTryFrom (deserializeWmata
        ⟨"2024-06-01T10:00:00", "", "y", "", "", none, none, none, "", ""⟩) :=
  (normalize_depends_only_on_declared_fields
    ⟨"2024-06-01T10:00:00", "sev", "y", "em", "end", some "id1", some "Delay",
      some "RD;", "pd", "start"⟩
    ⟨"2024-06-01T10:00:00", "", "y", "", "", none, none, none, "", ""⟩ rfl rfl).2.1

end FireAlarm
